import Mathlib

/-!
Verification development for the candidate-evaluation pipeline of the
AI resume screener (Python sources under src/utils/).

The Python functions are shallowly embedded as Lean definitions:
Python float arithmetic is modelled by exact rationals, Python dicts by
Lean structures or lookup functions, and Python regular-expression
substitution by explicit leftmost-greedy scanners derived from the
semantics of the two concrete patterns used by the code.
-/

namespace ResumeScreener

/-
Section 1: definitions for the pre-screening filter
(src/utils/scoring.py, auto_pre_screen_candidates).
-/

/-
The value a row carries in its experience_years cell, as seen by
float(row.get(...)): either a value the conversion succeeds on
(modelled by the rational it yields) or one on which float() raises.
A missing cell defaults to 0, hence is valid 0.
-/
inductive ExpVal where
  | valid (q : ℚ)
  | invalid
deriving DecidableEq

/- The two row fields the pre-screening filter reads. -/
structure Candidate where
  experience_years : ExpVal
  tech_stack : String
deriving DecidableEq

/- needle is at the head of hay. -/
def leadsL : List Char → List Char → Bool
  | [], _ => true
  | _ :: _, [] => false
  | a :: as, b :: bs => a == b && leadsL as bs

/- needle occurs contiguously somewhere in hay (Python: needle in hay). -/
def occursL (needle : List Char) : List Char → Bool
  | [] => leadsL needle []
  | c :: t => leadsL needle (c :: t) || occursL needle t

/- Python: needle in hay, on strings. -/
def strIncludes (hay needle : String) : Bool := occursL needle.toList hay.toList

/- Python: s.lower(), restricted to the ASCII behaviour of Char.toLower. -/
def toLowerStr (s : String) : String := String.mk (s.toList.map Char.toLower)

/-
Experience sub-score, scoring.py lines 44-61.  The try block covers the
float conversion and the whole experience branch, and the except swallows
the error, so an invalid cell yields 0 points in every case, including
the flat-25 branch for min_exp == 0.
-/
def expSubScore (minExp : ℚ) (e : ExpVal) : ℕ :=
  match e with
  | .invalid => 0
  | .valid q =>
    if 0 < minExp then
      if minExp ≤ q then 50
      else if minExp * 0.8 ≤ q then 35
      else 0
    else 25

/-
One skill matches the lowercased tech stack, scoring.py lines 68-76:
case-insensitive substring, or one of the five fixed synonym pairs.
-/
def skillMatches (techLower : String) (skill : String) : Bool :=
  let sl := toLowerStr skill
  strIncludes techLower sl
  || (sl == "scikit-learn" && (strIncludes techLower "sklearn" || strIncludes techLower "scikit"))
  || (sl == "tensorflow" && strIncludes techLower "tensor")
  || (sl == "pytorch" && strIncludes techLower "torch")
  || (sl == "numpy" && strIncludes techLower "np")
  || (sl == "pandas" && strIncludes techLower "pd")

/- matched_skills, scoring.py lines 66-76. -/
def matchedSkills (required : List String) (tech : String) : List String :=
  required.filter (skillMatches (toLowerStr tech))

/- Skills sub-score, scoring.py lines 63-95. -/
def skillsSubScore (required : List String) (tech : String) : ℕ :=
  if required = [] then 25
  else
    let m := (matchedSkills required tech).length
    let r : ℚ := (m : ℚ) / (required.length : ℚ)
    if 0.6 ≤ r then 50
    else if 0.3 ≤ r then 35
    else if 0 < m then 20
    else 0

/- candidate_score: the sum of the two sub-scores. -/
def candidateScore (minExp : ℚ) (required : List String) (c : Candidate) : ℕ :=
  expSubScore minExp c.experience_years + skillsSubScore required c.tech_stack

/-
auto_pre_screen_candidates, scoring.py lines 39-100: keep exactly the rows
whose total score reaches the 40-point gate (line 97).
-/
def auto_pre_screen_candidates (minExp : ℚ) (required : List String)
    (df : List Candidate) : List Candidate :=
  df.filter (fun c => 40 ≤ candidateScore minExp required c)

/-
Section 2: definitions for the PII reconciliation step of the resume
extractor (src/utils/preprocessing.py, parse_resume_with_groq,
lines 125-134).  email_extracted and phone_extracted are the values the
function pre-extracted by regex from the original, unredacted resume
text (lines 23-35); parsed_data is the object parsed from the LLM reply,
of which only the top-level email and phone entries are touched.
-/

/-
A top-level string entry of the parsed JSON object: none models an
absent key or a JSON null, some s a string value.
-/
structure ParsedContact where
  email : Option String
  phone : Option String
deriving DecidableEq

/- Python truthiness of an optional string: None and the empty string are falsy. -/
def pyTruthy : Option String → Bool
  | none => false
  | some s => s ≠ ""

/-
The reconciliation of lines 125-134: under masking the pre-extracted
values overwrite the LLM fields whenever extraction found something;
otherwise they are written only when the LLM field is falsy or the
literal string "null", and an empty extraction writes None.
-/
def reconcile_pii (maskEnabled : Bool) (emailExtracted phoneExtracted : Option String)
    (pd : ParsedContact) : ParsedContact :=
  if maskEnabled then
    { email := if pyTruthy emailExtracted then emailExtracted else pd.email,
      phone := if pyTruthy phoneExtracted then phoneExtracted else pd.phone }
  else
    { email :=
        if !pyTruthy pd.email || pd.email == some "null" then
          (if pyTruthy emailExtracted then emailExtracted else none)
        else pd.email,
      phone :=
        if !pyTruthy pd.phone || pd.phone == some "null" then
          (if pyTruthy phoneExtracted then phoneExtracted else none)
        else pd.phone }

/-
Section 3: definitions for the lexical similarity scorer
(src/utils/scoring.py, calculate_semantic_score), a shallow embedding of
TfidfVectorizer(max_features=500) followed by cosine_similarity on the
two rows, with Python floats idealised as real numbers.  The default
vectorizer lowercases, tokenizes with the pattern of two-or-more word
characters, applies no stop-word list, uses raw term counts, smooth idf
log((1+n)/(1+df))+1 with corpus size n = 2, and l2 normalisation, and
cosine_similarity maps a zero row to similarity 0; an empty vocabulary
raises, which the except in the source turns into a returned 0.  Python
round-half-even on a float is modelled as round on the exact value.
-/

/- A word character of the token pattern, ASCII reading. -/
def isWordChar (c : Char) : Bool := c.isAlphanum || c = '_'

/- Maximal word-character runs of length at least 2, fuelled recursion. -/
def tokensF : ℕ → List Char → List String
  | 0, _ => []
  | _ + 1, [] => []
  | f + 1, c :: cs =>
    if isWordChar c then
      let run := c :: cs.takeWhile isWordChar
      let rest := cs.dropWhile isWordChar
      (if 2 ≤ run.length then [String.mk run] else []) ++ tokensF f rest
    else tokensF f cs

/- The terms of one document, in order of occurrence. -/
def tokenize (s : String) : List String :=
  tokensF (s.toList.map Char.toLower).length (s.toList.map Char.toLower)

/- Raw term frequency of t in one document. -/
def tf (doc : String) (t : String) : ℕ := (tokenize doc).count t

/- All term occurrences of the two-document corpus. -/
def corpusTokens (a b : String) : List String := tokenize a ++ tokenize b

/- The distinct terms of the corpus, before the max_features cap. -/
def vocab0 (a b : String) : Finset String := (corpusTokens a b).toFinset

/- Corpus-wide term frequency, the max_features selection key. -/
def tfTotal (a b : String) (t : String) : ℕ := (corpusTokens a b).count t

/-
The vocabulary after the max_features=500 cap: a term survives when
fewer than 500 terms beat it, where u beats t if u has the larger corpus
frequency, ties broken by the vectorizer's sorted term order.
-/
def vocabSel (a b : String) : Finset String :=
  (vocab0 a b).filter (fun t =>
    ((vocab0 a b).filter (fun u =>
      tfTotal a b t < tfTotal a b u ∨ (tfTotal a b u = tfTotal a b t ∧ u < t))).card < 500)

/- Document frequency of a term over the two-document corpus. -/
def dfCount (a b : String) (t : String) : ℕ :=
  (if t ∈ tokenize a then 1 else 0) + (if t ∈ tokenize b then 1 else 0)

/- Smooth idf with corpus size 2: log((1+2)/(1+df)) + 1. -/
noncomputable def idf (a b : String) (t : String) : ℝ :=
  Real.log (3 / (1 + (dfCount a b t : ℝ))) + 1

/- Unnormalised tf-idf weight of term t for one document of the pair. -/
noncomputable def tfidfWeight (a b doc : String) (t : String) : ℝ :=
  (tf doc t : ℝ) * idf a b t

/- Inner product of the two weight rows over the capped vocabulary. -/
noncomputable def tfidfDot (a b : String) : ℝ :=
  Finset.sum (vocabSel a b) fun t => tfidfWeight a b a t * tfidfWeight a b b t

/- Euclidean norm of one weight row. -/
noncomputable def docNorm (a b doc : String) : ℝ :=
  Real.sqrt (Finset.sum (vocabSel a b) fun t => tfidfWeight a b doc t ^ 2)

/- Cosine similarity of the two rows, 0 when either row is zero. -/
noncomputable def cosineSim (a b : String) : ℝ :=
  if docNorm a b a = 0 ∨ docNorm a b b = 0 then 0
  else tfidfDot a b / (docNorm a b a * docNorm a b b)

/-
calculate_semantic_score, scoring.py lines 13-21: scale the similarity
to 0-100 and round to two decimals; the try/except yields 0 when the
vectorizer raises on an empty vocabulary.  The value is always an exact
multiple of 1/100, so the score is stated as a rational.
-/
noncomputable def calculate_semantic_score (a b : String) : ℚ :=
  if vocab0 a b = ∅ then 0
  else ((round (cosineSim a b * 100 * 100) : ℤ) : ℚ) / 100

/-
Section 4: definitions for the matcher/ranker
(src/utils/scoring.py, match_candidates_with_jd).  The LLM call is an
external oracle, so its parsed JSON reply enters the embedding as a list
of entries; everything after the json.loads of the reply (lines 189-208)
is deterministic and is embedded below.  actual_top_n = min(top_n,
len(candidates_df)) only depends on the pool through its length, which
is therefore a parameter.  Python's stable descending list.sort is
modelled by List.insertionSort with the reflexive descending relation,
which computes the same list as any stable sort by the same key.
-/

/- One entry of the JSON array the LLM returns, missing keys as none. -/
structure LLMEntry where
  rank : ℤ
  name : String
  email : String
  matchPercentage : Option ℚ
  strengths : String
  gaps : String
  recommendation : String
  interviewPriority : String
deriving DecidableEq

/- One entry of the returned result set after score enrichment. -/
structure MatchResult where
  rank : ℤ
  name : String
  email : String
  matchPercentage : Option ℚ
  strengths : String
  gaps : String
  recommendation : String
  interviewPriority : String
  semanticScore : ℚ
  finalScore : ℚ
deriving DecidableEq

/- Python round(x, 2), on exact values. -/
def round2 (x : ℚ) : ℚ := ((round (x * 100) : ℤ) : ℚ) / 100

/-
Lines 192-202: look the candidate name up in the session resume-text
map; on a truthy hit blend 70% LLM and 30% lexical score, otherwise keep
the LLM match percentage (defaulting to 0 like result.get) unmodified.
-/
def scoreEntry (semF : String → String → ℚ) (resumeTexts : String → Option String)
    (jd : String) (e : LLMEntry) : MatchResult :=
  let rt := (resumeTexts e.name).getD ""
  if rt ≠ "" then
    let s := semF rt jd
    { rank := e.rank, name := e.name, email := e.email,
      matchPercentage := e.matchPercentage, strengths := e.strengths,
      gaps := e.gaps, recommendation := e.recommendation,
      interviewPriority := e.interviewPriority, semanticScore := s,
      finalScore := round2 (e.matchPercentage.getD 0 * 0.7 + s * 0.3) }
  else
    { rank := e.rank, name := e.name, email := e.email,
      matchPercentage := e.matchPercentage, strengths := e.strengths,
      gaps := e.gaps, recommendation := e.recommendation,
      interviewPriority := e.interviewPriority, semanticScore := 0,
      finalScore := e.matchPercentage.getD 0 }

/- Descending order on the sort key of line 204. -/
def rankLe (x y : MatchResult) : Prop := y.finalScore ≤ x.finalScore

instance : DecidableRel rankLe := fun x y =>
  inferInstanceAs (Decidable (y.finalScore ≤ x.finalScore))

instance : IsTotal MatchResult rankLe := ⟨fun x y => le_total y.finalScore x.finalScore⟩

instance : IsTrans MatchResult rankLe := ⟨fun _ _ _ h1 h2 => le_trans h2 h1⟩

/- Lines 205-206: enumerate(results, 1) writing result['rank'] = idx. -/
def assignRanksFrom (i : ℤ) : List MatchResult → List MatchResult
  | [] => []
  | r :: rs => { r with rank := i } :: assignRanksFrom (i + 1) rs

/-
The deterministic tail of match_candidates_with_jd (lines 123-127 and
189-208), given the parsed LLM reply: truncate to actual_top_n, enrich
with semantic and final scores, stable-sort descending by final score,
reassign dense 1-based ranks, and truncate again.
-/
def matchPost (semF : String → String → ℚ) (resumeTexts : String → Option String)
    (jd : String) (poolLen topN : ℕ) (entries : List LLMEntry) : List MatchResult :=
  if poolLen = 0 then []
  else
    let atn := min topN poolLen
    let results := (entries.take atn).map (scoreEntry semF resumeTexts jd)
    let sorted := List.insertionSort rankLe results
    (assignRanksFrom 1 sorted).take atn

/- match_candidates_with_jd with the repository's lexical scorer. -/
noncomputable def match_candidates_with_jd (resumeTexts : String → Option String)
    (jd : String) (poolLen topN : ℕ) (entries : List LLMEntry) : List MatchResult :=
  matchPost calculate_semantic_score resumeTexts jd poolLen topN entries

/-
Section 5: the PII redactor (src/utils/preprocessing.py, mask_pii,
lines 12-16), two re.sub passes embedded as leftmost-greedy scanners.

First pass, the pattern of one-or-more non-space characters, an '@',
and one-or-more non-space characters: a match can start inside a
maximal whitespace-free run exactly when the run holds an '@' that has
at least one character before it and one after it within the run; the
leftmost such match starts at the head of the run, and by greediness of
both non-space groups it consumes the run entirely, so the substitution
replaces exactly those runs with the email placeholder.

Second pass, the pattern of an optional '+', a digit, 8 to 12
characters that are digits, spaces or dashes, and a digit: re.sub scans
start positions left to right; at a position the optional '+' is tried
first (without it the next character must be a digit, so a '+' head
admits no shorter alternative), then the counted repetition
backtracks from 12 down to 8; after a replacement the scan resumes past
the match.  The scanners below use list-length fuel so that they remain
structurally recursive and computable by the kernel.
-/

/- Python whitespace (ASCII): the characters the \S class excludes. -/
def isSpaceCh (c : Char) : Bool :=
  c = ' ' || c = '\t' || c = '\n' || c = '\r' || c = '\x0b' || c = '\x0c'

/- The fixed email placeholder. -/
def emailTok : List Char := "[EMAIL_MASKED]".toList

/- The fixed phone placeholder. -/
def phoneTok : List Char := "[PHONE_MASKED]".toList

/- Some '@' occurs before the last position of the list. -/
def hasAtBeforeLast : List Char → Bool
  | [] => false
  | [_] => false
  | c :: d :: t => c == '@' || hasAtBeforeLast (d :: t)

/- The email pattern matches inside this whitespace-free run. -/
def emailRunMatch : List Char → Bool
  | [] => false
  | _ :: rest => hasAtBeforeLast rest

/- First substitution pass, processing one maximal run per step. -/
def emailSubF : ℕ → List Char → List Char
  | 0, l => l
  | _ + 1, [] => []
  | f + 1, c :: cs =>
    if isSpaceCh c then c :: emailSubF f cs
    else
      (if emailRunMatch (c :: cs.takeWhile (fun d => !isSpaceCh d)) then emailTok
       else c :: cs.takeWhile (fun d => !isSpaceCh d))
        ++ emailSubF f (cs.dropWhile (fun d => !isSpaceCh d))

def emailSub (l : List Char) : List Char := emailSubF l.length l

/- A character of the class of digits, spaces and dashes. -/
def isClassCh (c : Char) : Bool := c.isDigit || c = ' ' || c = '-'

/- The counted repetition of width k succeeds here, with a digit after it. -/
def okK (cs : List Char) (k : ℕ) : Bool :=
  (cs.take k).all isClassCh &&
    (match cs[k]? with
     | some d => d.isDigit
     | none => false)

/- Greedy counted repetition: the largest workable k from 12 down to 8. -/
def findK (cs : List Char) : Option ℕ := [12, 11, 10, 9, 8].find? (fun k => okK cs k)

/- Length of the phone match without the optional '+', at this position. -/
def phoneCore : List Char → Option ℕ
  | [] => none
  | c :: cs => if c.isDigit then (findK cs).map (fun k => k + 2) else none

/- Length of the phone match at this position, '+' included. -/
def tryPhoneAt : List Char → Option ℕ
  | [] => none
  | c :: cs => if c = '+' then (phoneCore cs).map (fun n => n + 1) else phoneCore (c :: cs)

/- Second substitution pass: leftmost match, then resume past it. -/
def phoneSubF : ℕ → List Char → List Char
  | 0, l => l
  | _ + 1, [] => []
  | f + 1, c :: cs =>
    match tryPhoneAt (c :: cs) with
    | some n => phoneTok ++ phoneSubF f ((c :: cs).drop n)
    | none => c :: phoneSubF f cs

def phoneSub (l : List Char) : List Char := phoneSubF l.length l

/- mask_pii, preprocessing.py lines 12-16: the two passes in order. -/
def mask_pii (s : String) : String := String.mk (phoneSub (emailSub s.toList))

/- The phone pattern matches at some position of the list. -/
def hasPhone : List Char → Bool
  | [] => false
  | c :: cs => (tryPhoneAt (c :: cs)).isSome || hasPhone cs

/-
Some '@' has a non-space neighbour on each side; this local property is
equivalent to the email pattern matching somewhere in the text.
-/
def emailTriple : List Char → Bool
  | a :: b :: c :: t => (!isSpaceCh a && b == '@' && !isSpaceCh c) || emailTriple (b :: c :: t)
  | _ => false

/-
Theorems.  Helper lemmas come first, then one theorem per claim
(with its witness or counterexample where required).
-/

lemma mem_prescreen_iff (minExp : ℚ) (required : List String)
    (df : List Candidate) (c : Candidate) :
    c ∈ auto_pre_screen_candidates minExp required df ↔
      c ∈ df ∧ 40 ≤ candidateScore minExp required c := by
  simp [auto_pre_screen_candidates, List.mem_filter]

lemma skillsSubScore_nil (tech : String) : skillsSubScore [] tech = 25 := by
  simp [skillsSubScore]

lemma skillsSubScore_no_match {required : List String} {tech : String}
    (h : required ≠ []) (hm : matchedSkills required tech = []) :
    skillsSubScore required tech = 0 := by
  rw [skillsSubScore, if_neg h, hm]
  norm_num

lemma expSubScore_flat (q : ℚ) : expSubScore 0 (.valid q) = 25 := by
  norm_num [expSubScore]

lemma expSubScore_meets {minExp q : ℚ} (h : 0 < minExp) (hq : minExp ≤ q) :
    expSubScore minExp (.valid q) = 50 := by
  rw [expSubScore]
  simp only [if_pos h, if_pos hq]

lemma expSubScore_close {minExp q : ℚ} (h : 0 < minExp)
    (h1 : minExp * 0.8 ≤ q) (h2 : q < minExp) :
    expSubScore minExp (.valid q) = 35 := by
  rw [expSubScore]
  simp only [if_pos h, if_neg (not_le.mpr h2), if_pos h1]

lemma expSubScore_below {minExp q : ℚ} (h : 0 < minExp) (h2 : q < minExp * 0.8) :
    expSubScore minExp (.valid q) = 0 := by
  have hq : q < minExp := lt_of_lt_of_le h2 (by nlinarith)
  rw [expSubScore]
  simp only [if_pos h, if_neg (not_le.mpr hq), if_neg (not_le.mpr h2)]

lemma skillsSubScore_strong {required : List String} {tech : String}
    (h : required ≠ [])
    (hr : 0.6 ≤ ((matchedSkills required tech).length : ℚ) / (required.length : ℚ)) :
    skillsSubScore required tech = 50 := by
  rw [skillsSubScore, if_neg h]
  simp only [if_pos hr]

lemma skillsSubScore_partial {required : List String} {tech : String}
    (h : required ≠ [])
    (hr : 0.3 ≤ ((matchedSkills required tech).length : ℚ) / (required.length : ℚ))
    (hr2 : ((matchedSkills required tech).length : ℚ) / (required.length : ℚ) < 0.6) :
    skillsSubScore required tech = 35 := by
  rw [skillsSubScore, if_neg h]
  simp only [if_neg (not_le.mpr hr2), if_pos hr]

lemma skillsSubScore_some {required : List String} {tech : String}
    (h : required ≠ [])
    (hr : ((matchedSkills required tech).length : ℚ) / (required.length : ℚ) < 0.3)
    (hm : 0 < (matchedSkills required tech).length) :
    skillsSubScore required tech = 20 := by
  have hr2 : ((matchedSkills required tech).length : ℚ) / (required.length : ℚ) < 0.6 :=
    lt_trans hr (by norm_num)
  rw [skillsSubScore, if_neg h]
  simp only [if_neg (not_le.mpr hr2), if_neg (not_le.mpr hr), if_pos hm]

/--
C1: a candidate is in the qualified output of the pre-screening filter
iff its total score (experience sub-score plus skills sub-score) is at
least 40; a candidate whose valid experience equals a positive minimum
and who matches none of the (nonempty) required skills totals 50 and is
kept, while with minimum 0 and no skill match the total is 25 and the
candidate is dropped.
-/
theorem c1_prescreen_gate :
    (∀ (minExp : ℚ) (required : List String) (df : List Candidate) (c : Candidate),
      c ∈ auto_pre_screen_candidates minExp required df ↔
        c ∈ df ∧ 40 ≤ candidateScore minExp required c)
    ∧ (∀ (minExp : ℚ) (required : List String) (tech : String),
        0 < minExp → required ≠ [] → matchedSkills required tech = [] →
        candidateScore minExp required ⟨.valid minExp, tech⟩ = 50 ∧
        auto_pre_screen_candidates minExp required [⟨.valid minExp, tech⟩]
          = [⟨.valid minExp, tech⟩])
    ∧ (∀ (required : List String) (tech : String) (q : ℚ),
        required ≠ [] → matchedSkills required tech = [] →
        candidateScore 0 required ⟨.valid q, tech⟩ = 25 ∧
        auto_pre_screen_candidates 0 required [⟨.valid q, tech⟩] = []) := by
  refine ⟨mem_prescreen_iff, ?_, ?_⟩
  · intro minExp required tech hpos hreq hm
    have hsc : candidateScore minExp required ⟨.valid minExp, tech⟩ = 50 := by
      rw [candidateScore]
      simp only []
      rw [expSubScore_meets hpos le_rfl, skillsSubScore_no_match hreq hm]
    refine ⟨hsc, ?_⟩
    simp [auto_pre_screen_candidates, List.filter_cons, hsc]
  · intro required tech q hreq hm
    have hsc : candidateScore 0 required ⟨.valid q, tech⟩ = 25 := by
      rw [candidateScore]
      simp only []
      rw [expSubScore_flat, skillsSubScore_no_match hreq hm]
    refine ⟨hsc, ?_⟩
    simp [auto_pre_screen_candidates, List.filter_cons, hsc]

/-- Witness for C1 at concrete inputs. -/
theorem c1_prescreen_gate_witness :
    candidateScore 5 ["aws"] ⟨.valid 5, "zzz"⟩ = 50 ∧
    auto_pre_screen_candidates 5 ["aws"] [⟨.valid 5, "zzz"⟩] = [⟨.valid 5, "zzz"⟩] ∧
    candidateScore 0 ["aws"] ⟨.valid 9, "zzz"⟩ = 25 ∧
    auto_pre_screen_candidates 0 ["aws"] [⟨.valid 9, "zzz"⟩] = [] := by
  have h2 := c1_prescreen_gate.2.1 5 ["aws"] "zzz" (by norm_num) (by decide) (by decide)
  have h3 := c1_prescreen_gate.2.2 ["aws"] "zzz" 9 (by decide) (by decide)
  exact ⟨h2.1, h2.2, h3.1, h3.2⟩

/--
C2: the experience sub-score is a flat 25 when the minimum is 0, and for
a positive minimum it is 50 at or above the minimum, 35 from the lenient
0.8-threshold up to the minimum, and 0 below the threshold; on the pool
[2, 5, 8] with minimum 5 the sub-scores are [0, 50, 50].
-/
theorem c2_experience_subscore :
    (∀ q : ℚ, expSubScore 0 (.valid q) = 25)
    ∧ (∀ minExp q : ℚ, 0 < minExp → minExp ≤ q → expSubScore minExp (.valid q) = 50)
    ∧ (∀ minExp q : ℚ, 0 < minExp → minExp * 0.8 ≤ q → q < minExp →
        expSubScore minExp (.valid q) = 35)
    ∧ (∀ minExp q : ℚ, 0 < minExp → q < minExp * 0.8 →
        expSubScore minExp (.valid q) = 0)
    ∧ [(2 : ℚ), 5, 8].map (fun q => expSubScore 5 (.valid q)) = [0, 50, 50] := by
  refine ⟨expSubScore_flat, fun _ _ h hq => expSubScore_meets h hq,
    fun _ _ h h1 h2 => expSubScore_close h h1 h2,
    fun _ _ h h2 => expSubScore_below h h2, ?_⟩
  have e2 : expSubScore 5 (.valid 2) = 0 := expSubScore_below (by norm_num) (by norm_num)
  have e5 : expSubScore 5 (.valid 5) = 50 := expSubScore_meets (by norm_num) le_rfl
  have e8 : expSubScore 5 (.valid 8) = 50 := expSubScore_meets (by norm_num) (by norm_num)
  simp [e2, e5, e8]

/-- Witness for C2 at concrete inputs. -/
theorem c2_experience_subscore_witness :
    expSubScore 5 (.valid 7) = 50 ∧ expSubScore 5 (.valid 4) = 35 ∧
    expSubScore 5 (.valid 3) = 0 := by
  exact ⟨c2_experience_subscore.2.1 5 7 (by norm_num) (by norm_num),
    c2_experience_subscore.2.2.1 5 4 (by norm_num) (by norm_num) (by norm_num),
    c2_experience_subscore.2.2.2.1 5 3 (by norm_num) (by norm_num)⟩

/--
C3: the skills sub-score is a flat 25 with no required skills; otherwise,
with match ratio = matched count / required count (matching by
case-insensitive substring of the tech stack or the fixed synonym pairs),
it is 50 for ratio at least 0.6, 35 for ratio at least 0.3, 20 when at
least one skill matched, and 0 when none matched; for required skills
AWS, Kubernetes, Terraform against tech stack "aws, docker" exactly one
skill matches and the sub-score is 35.
-/
theorem c3_skills_subscore :
    (∀ tech : String, skillsSubScore [] tech = 25)
    ∧ (∀ (required : List String) (tech : String), required ≠ [] →
        0.6 ≤ ((matchedSkills required tech).length : ℚ) / (required.length : ℚ) →
        skillsSubScore required tech = 50)
    ∧ (∀ (required : List String) (tech : String), required ≠ [] →
        0.3 ≤ ((matchedSkills required tech).length : ℚ) / (required.length : ℚ) →
        ((matchedSkills required tech).length : ℚ) / (required.length : ℚ) < 0.6 →
        skillsSubScore required tech = 35)
    ∧ (∀ (required : List String) (tech : String), required ≠ [] →
        ((matchedSkills required tech).length : ℚ) / (required.length : ℚ) < 0.3 →
        0 < (matchedSkills required tech).length →
        skillsSubScore required tech = 20)
    ∧ (∀ (required : List String) (tech : String), required ≠ [] →
        matchedSkills required tech = [] → skillsSubScore required tech = 0)
    ∧ matchedSkills ["AWS", "Kubernetes", "Terraform"] "aws, docker" = ["AWS"]
    ∧ skillsSubScore ["AWS", "Kubernetes", "Terraform"] "aws, docker" = 35 := by
  have hm : matchedSkills ["AWS", "Kubernetes", "Terraform"] "aws, docker" = ["AWS"] := by
    decide
  refine ⟨skillsSubScore_nil, fun _ _ h hr => skillsSubScore_strong h hr,
    fun _ _ h hr hr2 => skillsSubScore_partial h hr hr2,
    fun _ _ h hr hmm => skillsSubScore_some h hr hmm,
    fun _ _ h hmm => skillsSubScore_no_match h hmm, hm, ?_⟩
  rw [skillsSubScore, if_neg (by decide : ¬ (["AWS", "Kubernetes", "Terraform"] : List String) = [])]
  rw [hm]
  norm_num

/-- Witness for C3 at concrete inputs. -/
theorem c3_skills_subscore_witness :
    skillsSubScore ["numpy"] "we use np arrays" = 50 ∧
    skillsSubScore ["a", "b", "c", "d"] "a" = 20 := by
  constructor
  · have h1 : matchedSkills ["numpy"] "we use np arrays" = ["numpy"] := by decide
    exact c3_skills_subscore.2.1 ["numpy"] "we use np arrays" (by decide)
      (by rw [h1]; norm_num)
  · have h2 : matchedSkills ["a", "b", "c", "d"] "a" = ["a"] := by decide
    exact c3_skills_subscore.2.2.2.1 ["a", "b", "c", "d"] "a" (by decide)
      (by rw [h2]; norm_num) (by rw [h2]; norm_num)

/--
C10: a row whose experience cell cannot be converted to a float scores 0
experience points in every case - including when the minimum is 0, where
a convertible cell would get the flat 25 - so its total equals the skills
sub-score alone and it passes the 40-point gate iff that sub-score does.
-/
theorem c10_invalid_experience :
    (∀ (minExp : ℚ) (required : List String) (tech : String),
      candidateScore minExp required ⟨.invalid, tech⟩ = skillsSubScore required tech)
    ∧ (∀ minExp : ℚ, expSubScore minExp .invalid = 0)
    ∧ (∀ q : ℚ, expSubScore 0 (.valid q) = 25)
    ∧ (∀ (minExp : ℚ) (required : List String) (tech : String),
        (⟨.invalid, tech⟩ : Candidate) ∈
            auto_pre_screen_candidates minExp required [⟨.invalid, tech⟩] ↔
          40 ≤ skillsSubScore required tech) := by
  have hz : ∀ (minExp : ℚ) (required : List String) (tech : String),
      candidateScore minExp required ⟨.invalid, tech⟩ = skillsSubScore required tech := by
    intro minExp required tech
    rw [candidateScore]
    simp [expSubScore]
  refine ⟨hz, fun _ => rfl, expSubScore_flat, ?_⟩
  intro minExp required tech
  rw [mem_prescreen_iff, hz]
  simp

/--
C6: with masking on, a nonempty locally pre-extracted email/phone always
overrides the LLM value; with masking off, the LLM value is kept when it
is truthy and not the literal "null", and only otherwise is the locally
pre-extracted value (or None when extraction found nothing) written.
-/
theorem c6_pii_reconciliation :
    (∀ (ee pe : Option String) (pd : ParsedContact) (e : String),
      ee = some e → e ≠ "" → (reconcile_pii true ee pe pd).email = some e)
    ∧ (∀ (ee pe : Option String) (pd : ParsedContact) (p : String),
      pe = some p → p ≠ "" → (reconcile_pii true ee pe pd).phone = some p)
    ∧ (∀ (ee pe : Option String) (pd : ParsedContact),
      pyTruthy pd.email = true → pd.email ≠ some "null" →
      (reconcile_pii false ee pe pd).email = pd.email)
    ∧ (∀ (ee pe : Option String) (pd : ParsedContact),
      pyTruthy pd.email = false ∨ pd.email = some "null" →
      (reconcile_pii false ee pe pd).email = if pyTruthy ee then ee else none)
    ∧ (∀ (ee pe : Option String) (pd : ParsedContact),
      pyTruthy pd.phone = true → pd.phone ≠ some "null" →
      (reconcile_pii false ee pe pd).phone = pd.phone)
    ∧ (∀ (ee pe : Option String) (pd : ParsedContact),
      pyTruthy pd.phone = false ∨ pd.phone = some "null" →
      (reconcile_pii false ee pe pd).phone = if pyTruthy pe then pe else none) := by
  refine ⟨?_, ?_, ?_, ?_, ?_, ?_⟩
  · intro ee pe pd e he hne
    subst he
    simp [reconcile_pii, pyTruthy, hne]
  · intro ee pe pd p hp hnp
    subst hp
    simp [reconcile_pii, pyTruthy, hnp]
  · intro ee pe pd ht hn
    have : (pd.email == some "null") = false := by
      simp only [beq_eq_false_iff_ne, ne_eq]
      exact hn
    simp [reconcile_pii, ht, this]
  · intro ee pe pd h
    rcases h with h | h
    · simp [reconcile_pii, h]
    · simp [reconcile_pii, h]
  · intro ee pe pd ht hn
    have : (pd.phone == some "null") = false := by
      simp only [beq_eq_false_iff_ne, ne_eq]
      exact hn
    simp [reconcile_pii, ht, this]
  · intro ee pe pd h
    rcases h with h | h
    · simp [reconcile_pii, h]
    · simp [reconcile_pii, h]

/-- Witness for C6 at concrete inputs. -/
theorem c6_pii_reconciliation_witness :
    (reconcile_pii true (some "a@b.co") (some "123") ⟨some "llm@x.co", some "999"⟩).email
      = some "a@b.co" ∧
    (reconcile_pii false (some "a@b.co") (some "123") ⟨some "llm@x.co", some "null"⟩).email
      = some "llm@x.co" ∧
    (reconcile_pii false (some "a@b.co") (some "123") ⟨some "llm@x.co", some "null"⟩).phone
      = some "123" := by
  refine ⟨c6_pii_reconciliation.1 _ (some "123") _ "a@b.co" rfl (by decide), ?_, ?_⟩
  · have h := c6_pii_reconciliation.2.2.1 (some "a@b.co") (some "123")
      ⟨some "llm@x.co", some "null"⟩ (by decide) (by decide)
    simpa using h
  · have h := c6_pii_reconciliation.2.2.2.2.2 (some "a@b.co") (some "123")
      ⟨some "llm@x.co", some "null"⟩ (Or.inr rfl)
    simpa using h

lemma emailSubF_irrel : ∀ (f g : ℕ) (l : List Char),
    l.length ≤ f → l.length ≤ g → emailSubF f l = emailSubF g l := by
  intro f
  induction f with
  | zero =>
    intro g l hf _
    have hl : l = [] := List.length_eq_zero.mp (Nat.le_zero.mp hf)
    subst hl
    cases g <;> rfl
  | succ f ih =>
    intro g l hf hg
    cases l with
    | nil => cases g <;> rfl
    | cons c cs =>
      cases g with
      | zero => simp at hg
      | succ g' =>
        simp only [List.length_cons, Nat.succ_le_succ_iff] at hf hg
        simp only [emailSubF]
        by_cases hc : isSpaceCh c = true
        · rw [if_pos hc, if_pos hc, ih g' cs hf hg]
        · rw [if_neg hc, if_neg hc,
            ih g' (cs.dropWhile (fun d => !isSpaceCh d))
              (le_trans (List.dropWhile_sublist _).length_le hf)
              (le_trans (List.dropWhile_sublist _).length_le hg)]

lemma emailSub_cons (c : Char) (cs : List Char) : emailSub (c :: cs) =
    if isSpaceCh c then c :: emailSub cs
    else (if emailRunMatch (c :: cs.takeWhile (fun d => !isSpaceCh d)) then emailTok
          else c :: cs.takeWhile (fun d => !isSpaceCh d))
         ++ emailSub (cs.dropWhile (fun d => !isSpaceCh d)) := by
  show emailSubF (c :: cs).length (c :: cs) = _
  simp only [List.length_cons, emailSubF]
  by_cases hc : isSpaceCh c = true
  · rw [if_pos hc, if_pos hc]
    rfl
  · rw [if_neg hc, if_neg hc,
      emailSubF_irrel cs.length (cs.dropWhile fun d => !isSpaceCh d).length
        (cs.dropWhile fun d => !isSpaceCh d) (List.dropWhile_sublist _).length_le le_rfl]
    rfl

lemma findK_spec {cs : List Char} {k : ℕ} (h : findK cs = some k) :
    8 ≤ k ∧ k ≤ 12 ∧ okK cs k = true := by
  have hmem := List.mem_of_find?_eq_some h
  have hok := List.find?_some h
  refine ⟨?_, ?_, hok⟩ <;> · simp only [List.mem_cons, List.not_mem_nil, or_false] at hmem
                             rcases hmem with h | h | h | h | h <;> omega

lemma phoneCore_pos {l : List Char} {n : ℕ} (h : phoneCore l = some n) : 10 ≤ n := by
  cases l with
  | nil => simp [phoneCore] at h
  | cons c cs =>
    rw [phoneCore] at h
    by_cases hd : c.isDigit = true
    · rw [if_pos hd] at h
      obtain ⟨k, hk, hkn⟩ := Option.map_eq_some'.mp h
      have := (findK_spec hk).1
      omega
    · rw [if_neg hd] at h
      cases h

lemma tryPhoneAt_pos {l : List Char} {n : ℕ} (h : tryPhoneAt l = some n) : 10 ≤ n := by
  cases l with
  | nil => cases h
  | cons c cs =>
    rw [tryPhoneAt] at h
    by_cases hp : c = '+'
    · rw [if_pos hp] at h
      obtain ⟨m, hm, hmn⟩ := Option.map_eq_some'.mp h
      have := phoneCore_pos hm
      omega
    · rw [if_neg hp] at h
      exact phoneCore_pos h

lemma phoneSubF_irrel : ∀ (f g : ℕ) (l : List Char),
    l.length ≤ f → l.length ≤ g → phoneSubF f l = phoneSubF g l := by
  intro f
  induction f with
  | zero =>
    intro g l hf _
    have hl : l = [] := List.length_eq_zero.mp (Nat.le_zero.mp hf)
    subst hl
    cases g <;> rfl
  | succ f ih =>
    intro g l hf hg
    cases l with
    | nil => cases g <;> rfl
    | cons c cs =>
      cases g with
      | zero => simp at hg
      | succ g' =>
        simp only [List.length_cons, Nat.succ_le_succ_iff] at hf hg
        simp only [phoneSubF]
        cases htry : tryPhoneAt (c :: cs) with
        | some n =>
          have hn : 10 ≤ n := tryPhoneAt_pos htry
          have hlen : ((c :: cs).drop n).length ≤ cs.length := by
            rw [List.length_drop, List.length_cons]
            omega
          simp only [htry]
          rw [ih g' ((c :: cs).drop n) (le_trans hlen hf) (le_trans hlen hg)]
        | none =>
          simp only [htry]
          rw [ih g' cs hf hg]

lemma phoneSub_cons_some {c : Char} {cs : List Char} {n : ℕ}
    (h : tryPhoneAt (c :: cs) = some n) :
    phoneSub (c :: cs) = phoneTok ++ phoneSub ((c :: cs).drop n) := by
  show phoneSubF (c :: cs).length (c :: cs) = _
  simp only [List.length_cons, phoneSubF, h]
  rw [phoneSubF_irrel cs.length ((c :: cs).drop n).length ((c :: cs).drop n)
    (by have := tryPhoneAt_pos h; rw [List.length_drop, List.length_cons]; omega) le_rfl]
  rfl

lemma phoneSub_cons_none {c : Char} {cs : List Char}
    (h : tryPhoneAt (c :: cs) = none) :
    phoneSub (c :: cs) = c :: phoneSub cs := by
  show phoneSubF (c :: cs).length (c :: cs) = _
  simp only [List.length_cons, phoneSubF, h]
  rfl

lemma isSpaceCh_cases {c : Char} (h : isSpaceCh c = true) :
    c = ' ' ∨ c = '\t' ∨ c = '\n' ∨ c = '\r' ∨ c = '\x0b' ∨ c = '\x0c' := by
  simp only [isSpaceCh, Bool.or_eq_true, decide_eq_true_eq] at h
  tauto

lemma not_isSpaceCh_of_isDigit {c : Char} (h : c.isDigit = true) : isSpaceCh c = false := by
  by_contra hs
  rw [Bool.not_eq_false] at hs
  rcases isSpaceCh_cases hs with h' | h' | h' | h' | h' | h' <;>
    · subst h'
      exact absurd h (by decide)

lemma isClassCh_of_isDigit {c : Char} (h : c.isDigit = true) : isClassCh c = true := by
  simp [isClassCh, h]

lemma tryPhoneAt_none_of_head {c : Char} {cs : List Char}
    (h1 : c.isDigit = false) (h2 : c ≠ '+') : tryPhoneAt (c :: cs) = none := by
  simp [tryPhoneAt, phoneCore, h1, h2]

lemma okK_spec {cs : List Char} {k : ℕ} (h : okK cs k = true) :
    (∀ j, j < k → ∃ d, cs[j]? = some d ∧ isClassCh d = true) ∧
      (∃ d, cs[k]? = some d ∧ d.isDigit = true) := by
  rw [okK, Bool.and_eq_true] at h
  obtain ⟨hall, hlast⟩ := h
  cases hk : cs[k]? with
  | none => rw [hk] at hlast; cases hlast
  | some d =>
    rw [hk] at hlast
    have hklen : k < cs.length := (List.getElem?_eq_some.mp hk).1
    refine ⟨?_, d, rfl, hlast⟩
    intro j hj
    have hjlen : j < cs.length := lt_trans hj hklen
    refine ⟨cs[j], List.getElem?_eq_getElem hjlen, ?_⟩
    have hmem : cs[j] ∈ cs.take k := by
      have : (cs.take k)[j]? = some cs[j] := by
        rw [List.getElem?_take, if_pos hj]
        exact List.getElem?_eq_getElem hjlen
      obtain ⟨hlt, he⟩ := List.getElem?_eq_some.mp this
      exact he ▸ List.getElem_mem hlt
    exact List.all_eq_true.mp hall _ hmem

lemma phoneCore_shape {l : List Char} {n : ℕ} (h : phoneCore l = some n) :
    ∃ c cs k, l = c :: cs ∧ c.isDigit = true ∧ findK cs = some k ∧ n = k + 2 := by
  cases l with
  | nil => cases h
  | cons c cs =>
    rw [phoneCore] at h
    by_cases hd : c.isDigit = true
    · rw [if_pos hd] at h
      obtain ⟨k, hk, hkn⟩ := Option.map_eq_some'.mp h
      exact ⟨c, cs, k, rfl, hd, hk, hkn.symm⟩
    · rw [if_neg hd] at h
      cases h

lemma phoneCore_spec {l : List Char} {n : ℕ} (h : phoneCore l = some n) :
    10 ≤ n ∧ (∀ j, j < n → ∃ d, l[j]? = some d ∧ isClassCh d = true) ∧
      (∃ d, l[n - 1]? = some d ∧ d.isDigit = true) := by
  obtain ⟨c, cs, k, hl, hd, hk, hn⟩ := phoneCore_shape h
  obtain ⟨hk8, _, hok⟩ := findK_spec hk
  obtain ⟨hcls, d, hd2, hdig⟩ := okK_spec hok
  subst hl hn
  refine ⟨by omega, ?_, ?_⟩
  · intro j hj
    cases j with
    | zero => exact ⟨c, List.getElem?_cons_zero, isClassCh_of_isDigit hd⟩
    | succ j' =>
      rw [List.getElem?_cons_succ]
      by_cases hjk : j' < k
      · exact hcls j' hjk
      · have : j' = k := by omega
        subst this
        exact ⟨d, hd2, isClassCh_of_isDigit hdig⟩
  · have : k + 2 - 1 = k + 1 := by omega
    rw [this, List.getElem?_cons_succ]
    exact ⟨d, hd2, hdig⟩

lemma tryPhoneAt_spec {l : List Char} {n : ℕ} (h : tryPhoneAt l = some n) :
    10 ≤ n ∧ (∀ j, j < n → ∃ d, l[j]? = some d ∧ (isClassCh d || d = '+') = true) ∧
      (∃ d, l[n - 1]? = some d ∧ d.isDigit = true) := by
  cases l with
  | nil => cases h
  | cons c cs =>
    rw [tryPhoneAt] at h
    by_cases hp : c = '+'
    · rw [if_pos hp] at h
      obtain ⟨m, hm, hmn⟩ := Option.map_eq_some'.mp h
      obtain ⟨hm10, hcls, d, hd2, hdig⟩ := phoneCore_spec hm
      subst hmn hp
      refine ⟨by omega, ?_, ?_⟩
      · intro j hj
        cases j with
        | zero => exact ⟨'+', List.getElem?_cons_zero, by decide⟩
        | succ j' =>
          rw [List.getElem?_cons_succ]
          obtain ⟨d', hd', hcl'⟩ := hcls j' (by omega)
          exact ⟨d', hd', by simp [hcl']⟩
      · have h1 : m + 1 - 1 = (m - 1) + 1 := by omega
        rw [h1, List.getElem?_cons_succ]
        exact ⟨d, hd2, hdig⟩
    · rw [if_neg hp] at h
      obtain ⟨h10, hcls, d, hd2, hdig⟩ := phoneCore_spec h
      refine ⟨h10, ?_, d, hd2, hdig⟩
      intro j hj
      obtain ⟨d', hd', hcl'⟩ := hcls j hj
      exact ⟨d', hd', by simp [hcl']⟩

lemma okK_congr {cs cs₂ : List Char} {k : ℕ}
    (ht : cs.take (k + 1) = cs₂.take (k + 1)) : okK cs k = okK cs₂ k := by
  have h1 : cs.take k = cs₂.take k := by
    have e1 : cs.take k = (cs.take (k + 1)).take k := by
      rw [List.take_take, min_eq_left (by omega)]
    have e2 : cs₂.take k = (cs₂.take (k + 1)).take k := by
      rw [List.take_take, min_eq_left (by omega)]
    rw [e1, e2, ht]
  have h2 : cs[k]? = cs₂[k]? := by
    have e1 : cs[k]? = (cs.take (k + 1))[k]? := by
      rw [List.getElem?_take, if_pos (by omega)]
    have e2 : cs₂[k]? = (cs₂.take (k + 1))[k]? := by
      rw [List.getElem?_take, if_pos (by omega)]
    rw [e1, e2, ht]
  rw [okK, okK, h1, h2]

lemma mem_findK_list {k : ℕ} (h8 : 8 ≤ k) (h12 : k ≤ 12) :
    k ∈ ([12, 11, 10, 9, 8] : List ℕ) := by
  interval_cases k <;> simp

lemma phoneCore_some_transfer {l l₂ : List Char} {n : ℕ}
    (h : phoneCore l = some n) (ht : l.take n = l₂.take n) :
    ∃ m, phoneCore l₂ = some m := by
  obtain ⟨c, cs, k, hl, hd, hk, hn⟩ := phoneCore_shape h
  obtain ⟨hk8, hk12, hok⟩ := findK_spec hk
  subst hl hn
  cases l₂ with
  | nil => simp at ht
  | cons c₂ cs₂ =>
    have ht' : c :: cs.take (k + 1) = c₂ :: cs₂.take (k + 1) := ht
    injection ht' with hc hcs
    subst hc
    have hok₂ : okK cs₂ k = true := by
      rw [← okK_congr hcs]
      exact hok
    have hsome : (findK cs₂).isSome := by
      rw [findK]
      exact List.find?_isSome.mpr ⟨k, mem_findK_list hk8 hk12, hok₂⟩
    obtain ⟨k₂, hk₂⟩ := Option.isSome_iff_exists.mp hsome
    refine ⟨k₂ + 2, ?_⟩
    rw [phoneCore, if_pos hd, hk₂]
    rfl

lemma tryPhoneAt_some_transfer {l l₂ : List Char} {n : ℕ}
    (h : tryPhoneAt l = some n) (ht : l.take n = l₂.take n) :
    ∃ m, tryPhoneAt l₂ = some m := by
  have h10 : 10 ≤ n := tryPhoneAt_pos h
  cases l with
  | nil => cases h
  | cons c cs =>
    rw [tryPhoneAt] at h
    cases l₂ with
    | nil =>
      rw [List.take_cons (by omega : 0 < n)] at ht
      simp at ht
    | cons c₂ cs₂ =>
      rw [List.take_cons (by omega : 0 < n), List.take_cons (by omega : 0 < n)] at ht
      injection ht with hc hcs
      subst hc
      by_cases hp : c = '+'
      · rw [if_pos hp] at h
        obtain ⟨m, hm, hmn⟩ := Option.map_eq_some'.mp h
        have hmeq : m = n - 1 := by omega
        subst hmeq
        obtain ⟨m₂, hm₂⟩ := phoneCore_some_transfer hm hcs
        refine ⟨m₂ + 1, ?_⟩
        rw [tryPhoneAt, if_pos hp, hm₂]
        rfl
      · rw [if_neg hp] at h
        have hfull : (c :: cs).take n = (c :: cs₂).take n := by
          rw [List.take_cons (by omega : 0 < n), List.take_cons (by omega : 0 < n), hcs]
        obtain ⟨m₂, hm₂⟩ := phoneCore_some_transfer h hfull
        refine ⟨m₂, ?_⟩
        rw [tryPhoneAt, if_neg hp]
        exact hm₂

lemma phoneSub_brk : ∀ l : List Char,
    phoneSub l = l ∨ ∃ p s t, l = p ++ s ∧ phoneSub l = p ++ '[' :: t := by
  suffices H : ∀ N, ∀ l : List Char, l.length ≤ N →
      phoneSub l = l ∨ ∃ p s t, l = p ++ s ∧ phoneSub l = p ++ '[' :: t by
    exact fun l => H l.length l le_rfl
  intro N
  induction N with
  | zero =>
    intro l hl
    have : l = [] := List.length_eq_zero.mp (Nat.le_zero.mp hl)
    subst this
    exact Or.inl rfl
  | succ N ih =>
    intro l hl
    cases l with
    | nil => exact Or.inl rfl
    | cons c cs =>
      cases htry : tryPhoneAt (c :: cs) with
      | some n =>
        refine Or.inr ⟨[], c :: cs, "PHONE_MASKED]".toList ++ phoneSub ((c :: cs).drop n),
          rfl, ?_⟩
        rw [phoneSub_cons_some htry]
        rfl
      | none =>
        rw [phoneSub_cons_none htry]
        simp only [List.length_cons, Nat.succ_le_succ_iff] at hl
        rcases ih cs hl with h | ⟨p, s, t, hps, hout⟩
        · exact Or.inl (by rw [h])
        · exact Or.inr ⟨c :: p, s, t, by rw [hps]; rfl, by rw [hout]; rfl⟩

lemma tryPhoneAt_none_pres {c : Char} {l l₂ : List Char}
    (hnone : tryPhoneAt (c :: l) = none)
    (hbrk : l₂ = l ∨ ∃ p s t, l = p ++ s ∧ l₂ = p ++ '[' :: t) :
    tryPhoneAt (c :: l₂) = none := by
  rcases hbrk with h | ⟨p, s, t, hps, hl₂⟩
  · rw [h]
    exact hnone
  by_contra hne
  obtain ⟨n, hsome⟩ := Option.ne_none_iff_exists'.mp hne
  obtain ⟨h10, hchars, _⟩ := tryPhoneAt_spec hsome
  have hbr : (c :: l₂)[p.length + 1]? = some '[' := by
    rw [List.getElem?_cons_succ, hl₂, List.getElem?_append_right le_rfl]
    simp
  by_cases hlt : p.length + 1 < n
  · obtain ⟨d, hd, hcl⟩ := hchars (p.length + 1) hlt
    rw [hbr] at hd
    injection hd with hd
    subst hd
    exact absurd hcl (by decide)
  · have htake : (c :: l₂).take n = (c :: l).take n := by
      rw [List.take_cons (by omega : 0 < n), List.take_cons (by omega : 0 < n)]
      congr 1
      rw [hps, hl₂, List.take_append_eq_append_take, List.take_append_eq_append_take]
      have hz : n - 1 - p.length = 0 := by omega
      rw [hz]
      simp
    obtain ⟨m, hm⟩ := tryPhoneAt_some_transfer hsome htake
    rw [hnone] at hm
    cases hm

lemma phoneSub_of_hasPhone_false : ∀ l : List Char, hasPhone l = false → phoneSub l = l := by
  suffices H : ∀ N, ∀ l : List Char, l.length ≤ N → hasPhone l = false → phoneSub l = l by
    exact fun l => H l.length l le_rfl
  intro N
  induction N with
  | zero =>
    intro l hl _
    have : l = [] := List.length_eq_zero.mp (Nat.le_zero.mp hl)
    subst this
    rfl
  | succ N ih =>
    intro l hl hp
    cases l with
    | nil => rfl
    | cons c cs =>
      rw [hasPhone, Bool.or_eq_false_iff] at hp
      obtain ⟨h1, h2⟩ := hp
      have hnone : tryPhoneAt (c :: cs) = none := Option.not_isSome_iff_eq_none.mp (by
        rw [h1]
        exact Bool.false_ne_true)
      simp only [List.length_cons, Nat.succ_le_succ_iff] at hl
      rw [phoneSub_cons_none hnone, ih cs hl h2]

lemma hasPhone_append_clean {a X : List Char}
    (ha : ∀ c ∈ a, c.isDigit = false ∧ c ≠ '+') (hX : hasPhone X = false) :
    hasPhone (a ++ X) = false := by
  induction a with
  | nil => exact hX
  | cons x a' ih =>
    rw [List.cons_append, hasPhone, Bool.or_eq_false_iff]
    obtain ⟨hd, hp⟩ := ha x (List.mem_cons_self x a')
    refine ⟨?_, ih fun c hc => ha c (List.mem_cons_of_mem x hc)⟩
    rw [tryPhoneAt_none_of_head hd hp]
    rfl

lemma phoneTok_clean : ∀ c ∈ phoneTok, c.isDigit = false ∧ c ≠ '+' := by decide

lemma hasPhone_phoneSub : ∀ l : List Char, hasPhone (phoneSub l) = false := by
  suffices H : ∀ N, ∀ l : List Char, l.length ≤ N → hasPhone (phoneSub l) = false by
    exact fun l => H l.length l le_rfl
  intro N
  induction N with
  | zero =>
    intro l hl
    have : l = [] := List.length_eq_zero.mp (Nat.le_zero.mp hl)
    subst this
    rfl
  | succ N ih =>
    intro l hl
    cases l with
    | nil => rfl
    | cons c cs =>
      simp only [List.length_cons, Nat.succ_le_succ_iff] at hl
      cases htry : tryPhoneAt (c :: cs) with
      | some n =>
        rw [phoneSub_cons_some htry]
        refine hasPhone_append_clean phoneTok_clean (ih _ ?_)
        have := tryPhoneAt_pos htry
        rw [List.length_drop, List.length_cons]
        omega
      | none =>
        rw [phoneSub_cons_none htry, hasPhone, Bool.or_eq_false_iff]
        refine ⟨?_, ih cs hl⟩
        rw [tryPhoneAt_none_pres htry (phoneSub_brk cs)]
        rfl

lemma phoneSub_idem (l : List Char) : phoneSub (phoneSub l) = phoneSub l :=
  phoneSub_of_hasPhone_false _ (hasPhone_phoneSub l)

lemma tryPhoneAt_head {c : Char} {cs : List Char} {n : ℕ}
    (h : tryPhoneAt (c :: cs) = some n) : c = '+' ∨ c.isDigit = true := by
  rw [tryPhoneAt] at h
  by_cases hp : c = '+'
  · exact Or.inl hp
  · rw [if_neg hp] at h
    obtain ⟨c', cs', k, hl, hd, _, _⟩ := phoneCore_shape h
    injection hl with h1 _
    exact Or.inr (h1 ▸ hd)

lemma phoneTok_head : phoneTok = '[' :: "PHONE_MASKED]".toList := by decide

lemma emailTriple_tail {c : Char} {t : List Char}
    (h : emailTriple (c :: t) = false) : emailTriple t = false := by
  match t with
  | [] => rfl
  | [_] => rfl
  | y1 :: y2 :: t' =>
    rw [emailTriple, Bool.or_eq_false_iff] at h
    exact h.2

lemma emailTriple_cons_of_true {x : Char} {l : List Char}
    (h : emailTriple l = true) : emailTriple (x :: l) = true := by
  match l with
  | [] => cases h
  | [_] => cases h
  | y1 :: y2 :: t' =>
    rw [emailTriple, h, Bool.or_true]

lemma emailTriple_append_right {a X : List Char}
    (h : emailTriple (a ++ X) = false) : emailTriple X = false := by
  induction a with
  | nil => exact h
  | cons x a' ih => exact ih (emailTriple_tail h)

lemma emailTriple_drop {l : List Char} (n : ℕ)
    (h : emailTriple l = false) : emailTriple (l.drop n) = false := by
  refine emailTriple_append_right (a := l.take n) ?_
  rw [List.take_append_drop]
  exact h

lemma emailTriple_of_idx {l : List Char} {i : ℕ} {a c2 : Char}
    (h0 : l[i]? = some a) (h1 : l[i + 1]? = some '@') (h2 : l[i + 2]? = some c2)
    (ha : isSpaceCh a = false) (hc2 : isSpaceCh c2 = false) :
    emailTriple l = true := by
  induction l generalizing i with
  | nil => cases h0
  | cons x l' ih =>
    cases i with
    | zero =>
      rw [List.getElem?_cons_zero] at h0
      injection h0 with h0
      subst h0
      match l', h1, h2 with
      | [], h1, _ =>
        exact absurd h1 (by exact fun hcon => Option.noConfusion hcon)
      | [y1], _, h2 =>
        exact absurd h2 (by exact fun hcon => Option.noConfusion hcon)
      | y1 :: y2 :: t, h1, h2 =>
        have e1 : (x :: y1 :: y2 :: t)[0 + 1]? = some y1 := rfl
        have e2 : (x :: y1 :: y2 :: t)[0 + 2]? = some y2 := by simp
        rw [e1] at h1
        rw [e2] at h2
        injection h1 with h1
        injection h2 with h2
        subst h1
        subst h2
        rw [emailTriple, ha, hc2]
        simp
    | succ i' =>
      have e0 : (x :: l')[i' + 1]? = l'[i']? := List.getElem?_cons_succ
      have e1 : (x :: l')[i' + 1 + 1]? = l'[i' + 1]? := List.getElem?_cons_succ
      have e2 : (x :: l')[i' + 1 + 2]? = l'[i' + 2]? := by
        have hh : i' + 1 + 2 = (i' + 2) + 1 := by omega
        rw [hh]
        exact List.getElem?_cons_succ
      rw [e0] at h0
      rw [e1] at h1
      rw [e2] at h2
      exact emailTriple_cons_of_true (ih h0 h1 h2)

lemma emailTriple_cons_destruct {x : Char} {t : List Char}
    (h : emailTriple (x :: t) = true) :
    (∃ y1 y2 t', t = y1 :: y2 :: t' ∧ isSpaceCh x = false ∧ y1 = '@' ∧
      isSpaceCh y2 = false) ∨ emailTriple t = true := by
  match t with
  | [] => cases h
  | [_] => cases h
  | y1 :: y2 :: t' =>
    rw [emailTriple, Bool.or_eq_true] at h
    rcases h with h | h
    · simp only [Bool.and_eq_true, Bool.not_eq_true', beq_iff_eq] at h
      exact Or.inl ⟨y1, y2, t', rfl, h.1.1, h.1.2, h.2⟩
    · exact Or.inr h

lemma emailTriple_false_of_no_at {l : List Char}
    (h : ∀ c ∈ l, c ≠ '@') : emailTriple l = false := by
  induction l with
  | nil => rfl
  | cons x t ih =>
    match t, ih, h with
    | [], _, _ => rfl
    | [_], _, _ => rfl
    | y1 :: y2 :: t', ih, h =>
      rw [emailTriple]
      have hy1 : y1 ≠ '@' := h y1 (by simp)
      have htail : emailTriple (y1 :: y2 :: t') = false :=
        ih fun c hc => h c (List.mem_cons_of_mem x hc)
      rw [htail]
      simp [hy1]

lemma hasAtBeforeLast_tail {d : Char} {t : List Char}
    (h : hasAtBeforeLast (d :: t) = false) : hasAtBeforeLast t = false := by
  match t with
  | [] => rfl
  | e :: t' =>
    rw [hasAtBeforeLast, Bool.or_eq_false_iff] at h
    exact h.2

lemma emailTriple_of_runMatch {X : List Char} :
    ∀ (rest : List Char) (c : Char), (∀ x ∈ c :: rest, isSpaceCh x = false) →
      hasAtBeforeLast rest = true → emailTriple ((c :: rest) ++ X) = true := by
  intro rest
  induction rest with
  | nil => intro c _ hm; cases hm
  | cons r1 rest' ih =>
    intro c hns hm
    match rest', hm with
    | [], hm => cases hm
    | r2 :: t', hm =>
      rw [hasAtBeforeLast, Bool.or_eq_true] at hm
      rcases hm with hm | hm
      · rw [beq_iff_eq] at hm
        subst hm
        have hc : isSpaceCh c = false := hns c (by simp)
        have hr2 : isSpaceCh r2 = false := hns r2 (by simp)
        show emailTriple (c :: '@' :: r2 :: (t' ++ X)) = true
        rw [emailTriple, hc, hr2]
        simp
      · have := ih r1 (fun x hx => hns x (List.mem_cons_of_mem c hx)) hm
        exact emailTriple_cons_of_true this

lemma emailTriple_append_guard {a Y : List Char}
    (hno : ∀ x ∈ a, x ≠ '@') (hY : emailTriple Y = false)
    (hg : ∀ y1 y2 t, Y = y1 :: y2 :: t → y1 = '@' → isSpaceCh y2 = true) :
    emailTriple (a ++ Y) = false := by
  induction a with
  | nil => exact hY
  | cons x a' ih =>
    by_contra hcon
    rw [Bool.not_eq_false] at hcon
    rcases emailTriple_cons_destruct hcon with ⟨y1, y2, t', heq, _, hat, hsy⟩ | htail
    · cases a' with
      | nil =>
        have heq' : Y = y1 :: y2 :: t' := heq
        exact absurd (hg y1 y2 t' heq' hat) (by rw [hsy]; exact Bool.false_ne_true)
      | cons b a'' =>
        have heq' : b :: (a'' ++ Y) = y1 :: y2 :: t' := heq
        injection heq' with hb _
        exact absurd hat (hb ▸ hno b (List.mem_cons_of_mem x (List.mem_cons_self b a'')))
    · have hf : emailTriple (a' ++ Y) = false :=
        ih fun x hx => hno x (List.mem_cons_of_mem _ hx)
      exact absurd (hf.symm.trans htail) Bool.false_ne_true

lemma emailTriple_run_append {Y : List Char}
    (hYhead : ∀ y1 t', Y = y1 :: t' → isSpaceCh y1 = true)
    (hY : emailTriple Y = false) :
    ∀ run : List Char, (∀ x ∈ run, isSpaceCh x = false) →
      emailRunMatch run = false → emailTriple (run ++ Y) = false := by
  intro run
  induction run with
  | nil => intro _ _; exact hY
  | cons x r' ih =>
    intro hns hm
    by_contra hcon
    rw [Bool.not_eq_false] at hcon
    rcases emailTriple_cons_destruct hcon with ⟨y1, y2, t', heq, _, hat, hsy⟩ | htail
    · cases r' with
      | nil =>
        have heq' : Y = y1 :: y2 :: t' := heq
        have := hYhead y1 (y2 :: t') heq'
        rw [hat] at this
        exact absurd this (by decide)
      | cons r1 r'' =>
        have heq0 : r1 :: (r'' ++ Y) = y1 :: y2 :: t' := heq
        injection heq0 with hb heq'
        subst hb
        subst hat
        cases r'' with
        | nil =>
          have heq'' : Y = y2 :: t' := heq'
          have := hYhead y2 t' heq''
          rw [this] at hsy
          cases hsy
        | cons r2 r''' =>
          rw [emailRunMatch, hasAtBeforeLast] at hm
          simp at hm
    · have hm' : emailRunMatch r' = false := by
        cases r' with
        | nil => rfl
        | cons r1 r'' =>
          rw [emailRunMatch]
          exact hasAtBeforeLast_tail (by rw [← emailRunMatch]; exact hm)
      have hf : emailTriple (r' ++ Y) = false :=
        ih (fun x hx => hns x (List.mem_cons_of_mem _ hx)) hm'
      exact absurd (hf.symm.trans htail) Bool.false_ne_true

lemma emailSub_of_triple_false : ∀ l : List Char,
    emailTriple l = false → emailSub l = l := by
  suffices H : ∀ N, ∀ l : List Char, l.length ≤ N →
      emailTriple l = false → emailSub l = l by
    exact fun l => H l.length l le_rfl
  intro N
  induction N with
  | zero =>
    intro l hl _
    have : l = [] := List.length_eq_zero.mp (Nat.le_zero.mp hl)
    subst this
    rfl
  | succ N ih =>
    intro l hl htf
    cases l with
    | nil => rfl
    | cons c cs =>
      simp only [List.length_cons, Nat.succ_le_succ_iff] at hl
      rw [emailSub_cons]
      by_cases hc : isSpaceCh c = true
      · rw [if_pos hc, ih cs hl (emailTriple_tail htf)]
      · rw [if_neg hc]
        have hsplit : (c :: cs.takeWhile (fun d => !isSpaceCh d)) ++
            cs.dropWhile (fun d => !isSpaceCh d) = c :: cs := by
          rw [List.cons_append, List.takeWhile_append_dropWhile]
        have hrm : emailRunMatch (c :: cs.takeWhile (fun d => !isSpaceCh d)) = false := by
          by_contra hcon
          rw [Bool.not_eq_false] at hcon
          have hns : ∀ x ∈ c :: cs.takeWhile (fun d => !isSpaceCh d),
              isSpaceCh x = false := by
            intro x hx
            rcases List.mem_cons.mp hx with hx | hx
            · subst hx
              simp only [Bool.not_eq_true] at hc
              exact hc
            · have := List.mem_takeWhile_imp hx
              simpa using this
          have := emailTriple_of_runMatch (X := cs.dropWhile fun d => !isSpaceCh d)
            (cs.takeWhile fun d => !isSpaceCh d) c hns (by rw [emailRunMatch] at hcon; exact hcon)
          rw [hsplit, htf] at this
          cases this
        rw [if_neg (by rw [hrm]; exact Bool.false_ne_true)]
        have htfr : emailTriple (cs.dropWhile fun d => !isSpaceCh d) = false := by
          refine emailTriple_append_right (a := c :: cs.takeWhile fun d => !isSpaceCh d) ?_
          rw [hsplit]
          exact htf
        rw [ih _ (le_trans (List.dropWhile_sublist _).length_le hl) htfr, hsplit]

lemma dropWhile_head_sp (cs : List Char) :
    cs.dropWhile (fun d => !isSpaceCh d) = [] ∨
      ∃ d t, cs.dropWhile (fun d => !isSpaceCh d) = d :: t ∧ isSpaceCh d = true := by
  induction cs with
  | nil => exact Or.inl rfl
  | cons c cs' ih =>
    rw [List.dropWhile_cons]
    by_cases hc : isSpaceCh c = true
    · rw [if_neg (by rw [hc]; exact Bool.false_ne_true)]
      exact Or.inr ⟨c, cs', rfl, hc⟩
    · rw [Bool.not_eq_true] at hc
      rw [if_pos (by rw [hc]; rfl)]
      exact ih

lemma emailSub_head_shape {l : List Char}
    (h : l = [] ∨ ∃ d t, l = d :: t ∧ isSpaceCh d = true) :
    emailSub l = [] ∨ ∃ d t', emailSub l = d :: t' ∧ isSpaceCh d = true := by
  rcases h with h | ⟨d, t, hl, hd⟩
  · subst h
    exact Or.inl rfl
  · subst hl
    rw [emailSub_cons, if_pos hd]
    exact Or.inr ⟨d, _, rfl, hd⟩

lemma emailTok_no_at : ∀ x ∈ emailTok, x ≠ '@' := by decide

lemma phoneTok_no_at : ∀ x ∈ phoneTok, x ≠ '@' := by decide

lemma shape_guard {Y : List Char}
    (hsh : Y = [] ∨ ∃ d t', Y = d :: t' ∧ isSpaceCh d = true) :
    ∀ y1 y2 t, Y = y1 :: y2 :: t → y1 = '@' → isSpaceCh y2 = true := by
  intro y1 y2 t hY hat
  rcases hsh with h | ⟨d, t', hd, hsp⟩
  · rw [h] at hY
    cases hY
  · rw [hd] at hY
    injection hY with h1 _
    subst hat
    rw [h1] at hsp
    exact absurd hsp (by decide)

lemma shape_head_sp {Y : List Char}
    (hsh : Y = [] ∨ ∃ d t', Y = d :: t' ∧ isSpaceCh d = true) :
    ∀ y1 t', Y = y1 :: t' → isSpaceCh y1 = true := by
  intro y1 t' hY
  rcases hsh with h | ⟨d, t'', hd, hsp⟩
  · rw [h] at hY
    cases hY
  · rw [hd] at hY
    injection hY with h1 _
    exact h1 ▸ hsp

lemma emailTriple_emailSub : ∀ l : List Char, emailTriple (emailSub l) = false := by
  suffices H : ∀ N, ∀ l : List Char, l.length ≤ N → emailTriple (emailSub l) = false by
    exact fun l => H l.length l le_rfl
  intro N
  induction N with
  | zero =>
    intro l hl
    have : l = [] := List.length_eq_zero.mp (Nat.le_zero.mp hl)
    subst this
    rfl
  | succ N ih =>
    intro l hl
    cases l with
    | nil => rfl
    | cons c cs =>
      simp only [List.length_cons, Nat.succ_le_succ_iff] at hl
      rw [emailSub_cons]
      have hYt : emailTriple (emailSub (cs.dropWhile fun d => !isSpaceCh d)) = false :=
        ih _ (le_trans (List.dropWhile_sublist _).length_le hl)
      have hsh := emailSub_head_shape (dropWhile_head_sp cs)
      by_cases hc : isSpaceCh c = true
      · rw [if_pos hc]
        by_contra hcon
        rw [Bool.not_eq_false] at hcon
        rcases emailTriple_cons_destruct hcon with ⟨y1, y2, t', _, hsx, _, _⟩ | htail
        · rw [hc] at hsx
          cases hsx
        · have hf : emailTriple (emailSub cs) = false := ih cs hl
          exact absurd (hf.symm.trans htail) Bool.false_ne_true
      · rw [if_neg hc]
        by_cases hrm : emailRunMatch (c :: cs.takeWhile fun d => !isSpaceCh d) = true
        · rw [if_pos hrm]
          exact emailTriple_append_guard emailTok_no_at hYt (shape_guard hsh)
        · rw [Bool.not_eq_true] at hrm
          rw [if_neg (by rw [hrm]; exact Bool.false_ne_true)]
          refine emailTriple_run_append (shape_head_sp hsh) hYt _ ?_ hrm
          intro x hx
          rcases List.mem_cons.mp hx with hx | hx
          · subst hx
            simp only [Bool.not_eq_true] at hc
            exact hc
          · have := List.mem_takeWhile_imp hx
            simpa using this

lemma head_nonspace_of_match {e2 : Char} {m₃ : List Char} {n : ℕ}
    (h : tryPhoneAt (e2 :: m₃) = some n) : isSpaceCh e2 = false := by
  rcases tryPhoneAt_head h with h' | h'
  · subst h'
    decide
  · exact not_isSpaceCh_of_isDigit h'

lemma phoneSub_cons_nonspace {m₂ : List Char} {y2 : Char} {t : List Char}
    (h : phoneSub m₂ = y2 :: t) (hns : isSpaceCh y2 = false) :
    ∃ e2 m₃, m₂ = e2 :: m₃ ∧ isSpaceCh e2 = false := by
  cases m₂ with
  | nil => cases h
  | cons e2 m₃ =>
    cases htry : tryPhoneAt (e2 :: m₃) with
    | some n => exact ⟨e2, m₃, rfl, head_nonspace_of_match htry⟩
    | none =>
      rw [phoneSub_cons_none htry] at h
      injection h with h1 _
      subst h1
      exact ⟨e2, m₃, rfl, hns⟩

lemma phoneSub_eq_at_cons {D : List Char} {y2 : Char} {t : List Char}
    (h : phoneSub D = '@' :: y2 :: t) :
    ∃ m₂, D = '@' :: m₂ ∧ phoneSub m₂ = y2 :: t := by
  cases D with
  | nil => cases h
  | cons e m₂ =>
    cases htry : tryPhoneAt (e :: m₂) with
    | some n =>
      rw [phoneSub_cons_some htry, phoneTok_head, List.cons_append] at h
      injection h with h1 _
      exact absurd h1 (by decide)
    | none =>
      rw [phoneSub_cons_none htry] at h
      injection h with h1 h2
      subst h1
      exact ⟨m₂, rfl, h2⟩

lemma emailTriple_phoneSub : ∀ l : List Char,
    emailTriple l = false → emailTriple (phoneSub l) = false := by
  suffices H : ∀ N, ∀ l : List Char, l.length ≤ N →
      emailTriple l = false → emailTriple (phoneSub l) = false by
    exact fun l => H l.length l le_rfl
  intro N
  induction N with
  | zero =>
    intro l hl _
    have : l = [] := List.length_eq_zero.mp (Nat.le_zero.mp hl)
    subst this
    rfl
  | succ N ih =>
    intro l hl htf
    cases l with
    | nil => rfl
    | cons c cs =>
      simp only [List.length_cons, Nat.succ_le_succ_iff] at hl
      cases htry : tryPhoneAt (c :: cs) with
      | some n =>
        rw [phoneSub_cons_some htry]
        have h10 := tryPhoneAt_pos htry
        have hYt : emailTriple (phoneSub ((c :: cs).drop n)) = false := by
          refine ih _ ?_ (emailTriple_drop n htf)
          rw [List.length_drop, List.length_cons]
          omega
        refine emailTriple_append_guard phoneTok_no_at hYt ?_
        intro y1 y2 t hY hat
        subst hat
        by_contra hns0
        rw [Bool.not_eq_true] at hns0
        obtain ⟨m₂, hD, hPm⟩ := phoneSub_eq_at_cons hY
        obtain ⟨e2, m₃, hm₂, he2⟩ := phoneSub_cons_nonspace hPm hns0
        obtain ⟨d, hd, hdd⟩ := (tryPhoneAt_spec htry).2.2
        have hat0 : (c :: cs)[n]? = some '@' := by
          have hdr : ((c :: cs).drop n)[0]? = (c :: cs)[n + 0]? := List.getElem?_drop _ n 0
          rw [hD] at hdr
          rw [← Nat.add_zero n]
          rw [← hdr]
          exact List.getElem?_cons_zero
        have he2i : (c :: cs)[n + 1]? = some e2 := by
          have hdr : ((c :: cs).drop n)[1]? = (c :: cs)[n + 1]? := List.getElem?_drop _ n 1
          rw [hD, hm₂] at hdr
          rw [← hdr]
          simp
        have he0 : n - 1 + 1 = n := by omega
        have he1 : n - 1 + 2 = n + 1 := by omega
        have htr : emailTriple (c :: cs) = true :=
          emailTriple_of_idx hd (by rw [he0]; exact hat0) (by rw [he1]; exact he2i)
            (not_isSpaceCh_of_isDigit hdd) he2
        rw [htf] at htr
        cases htr
      | none =>
        rw [phoneSub_cons_none htry]
        have hYt : emailTriple (phoneSub cs) = false :=
          ih cs hl (emailTriple_tail htf)
        by_contra hcon
        rw [Bool.not_eq_false] at hcon
        rcases emailTriple_cons_destruct hcon with ⟨y1, y2, t, hY, hsx, hat, hsy⟩ | htail
        · subst hat
          obtain ⟨m₂, hcs, hPm⟩ := phoneSub_eq_at_cons hY
          obtain ⟨e2, m₃, hm₂, he2⟩ := phoneSub_cons_nonspace hPm hsy
          subst hcs
          subst hm₂
          have : emailTriple (c :: '@' :: e2 :: m₃) = true := by
            rw [emailTriple, hsx, he2]
            simp
          rw [htf] at this
          cases this
        · exact absurd (hYt.symm.trans htail) Bool.false_ne_true

lemma tfTotal_symm (a b t : String) : tfTotal a b t = tfTotal b a t := by
  simp [tfTotal, corpusTokens, List.count_append, Nat.add_comm]

lemma vocab0_symm (a b : String) : vocab0 a b = vocab0 b a := by
  simp [vocab0, corpusTokens, List.toFinset_append, Finset.union_comm]

lemma vocabSel_symm (a b : String) : vocabSel a b = vocabSel b a := by
  have h : ∀ t, tfTotal a b t = tfTotal b a t := tfTotal_symm a b
  simp only [vocabSel, vocab0_symm a b, h]

lemma dfCount_symm (a b t : String) : dfCount a b t = dfCount b a t := by
  simp [dfCount, Nat.add_comm]

lemma idf_symm (a b t : String) : idf a b t = idf b a t := by
  simp [idf, dfCount_symm a b t]

lemma tfidfWeight_symm (a b doc t : String) :
    tfidfWeight a b doc t = tfidfWeight b a doc t := by
  simp [tfidfWeight, idf_symm a b t]

lemma tfidfDot_symm (a b : String) : tfidfDot a b = tfidfDot b a := by
  rw [tfidfDot, tfidfDot, vocabSel_symm a b]
  refine Finset.sum_congr rfl fun t _ => ?_
  rw [tfidfWeight_symm a b a t, tfidfWeight_symm a b b t, mul_comm]

lemma docNorm_symm (a b doc : String) : docNorm a b doc = docNorm b a doc := by
  rw [docNorm, docNorm, vocabSel_symm a b]
  congr 1
  refine Finset.sum_congr rfl fun t _ => ?_
  rw [tfidfWeight_symm a b doc t]

lemma cosineSim_symm (a b : String) : cosineSim a b = cosineSim b a := by
  rw [cosineSim, cosineSim, tfidfDot_symm a b, docNorm_symm a b a, docNorm_symm a b b]
  by_cases h : docNorm b a a = 0 ∨ docNorm b a b = 0
  · rw [if_pos h, if_pos h.symm]
  · rw [if_neg h, if_neg fun hc => h hc.symm, mul_comm]

lemma vocabSel_nonempty {a b : String} (h : (vocab0 a b).Nonempty) :
    (vocabSel a b).Nonempty := by
  obtain ⟨u, hu, hmax⟩ := Finset.exists_max_image (vocab0 a b) (tfTotal a b) h
  have hA : ((vocab0 a b).filter (fun x => tfTotal a b x = tfTotal a b u)).Nonempty :=
    ⟨u, Finset.mem_filter.mpr ⟨hu, rfl⟩⟩
  obtain ⟨t0, ht0, hmin⟩ :=
    Finset.exists_min_image ((vocab0 a b).filter
      (fun x => tfTotal a b x = tfTotal a b u)) id hA
  have ht0v : t0 ∈ vocab0 a b := (Finset.mem_filter.mp ht0).1
  have ht0c : tfTotal a b t0 = tfTotal a b u := (Finset.mem_filter.mp ht0).2
  refine ⟨t0, Finset.mem_filter.mpr ⟨ht0v, ?_⟩⟩
  have hemp : ((vocab0 a b).filter (fun v =>
      tfTotal a b t0 < tfTotal a b v ∨
        (tfTotal a b v = tfTotal a b t0 ∧ v < t0))) = ∅ := by
    rw [Finset.filter_eq_empty_iff]
    intro v hv
    rintro (hlt | ⟨heq, hltv⟩)
    · exact absurd (hmax v hv) (not_le.mpr (ht0c ▸ hlt))
    · have hvA : v ∈ (vocab0 a b).filter (fun x => tfTotal a b x = tfTotal a b u) :=
        Finset.mem_filter.mpr ⟨hv, heq.trans ht0c⟩
      exact absurd (hmin v hvA) (not_le.mpr hltv)
  rw [hemp]
  simp

lemma mem_tokenize_of_mem_vocab0_self {a t : String} (h : t ∈ vocab0 a a) :
    t ∈ tokenize a := by
  rcases List.mem_append.mp (List.mem_toFinset.mp h) with h' | h' <;> exact h'

lemma idf_self_eq_one {a t : String} (h : t ∈ tokenize a) : idf a a t = 1 := by
  have hdf : dfCount a a t = 2 := by simp [dfCount, h]
  rw [idf, hdf]
  norm_num

lemma cosineSim_self {a : String} (h : tokenize a ≠ []) : cosineSim a a = 1 := by
  obtain ⟨t, ht⟩ := List.exists_mem_of_ne_nil _ h
  have hvne : (vocab0 a a).Nonempty :=
    ⟨t, List.mem_toFinset.mpr (List.mem_append.mpr (Or.inl ht))⟩
  obtain ⟨t0, ht0⟩ := vocabSel_nonempty hvne
  have hw : ∀ u ∈ vocabSel a a, (1 : ℝ) ≤ tfidfWeight a a a u := by
    intro u hu
    have huv : u ∈ vocab0 a a := Finset.mem_of_mem_filter u hu
    have hut : u ∈ tokenize a := mem_tokenize_of_mem_vocab0_self huv
    have htf : 1 ≤ tf a u := List.count_pos_iff.mpr hut
    rw [tfidfWeight, idf_self_eq_one hut, mul_one]
    exact_mod_cast htf
  have hS : 0 < Finset.sum (vocabSel a a) fun u => tfidfWeight a a a u ^ 2 := by
    refine Finset.sum_pos' (fun u _ => sq_nonneg _) ⟨t0, ht0, ?_⟩
    have := hw t0 ht0
    positivity
  have hnorm : docNorm a a a ≠ 0 := by
    rw [docNorm, ne_eq, Real.sqrt_eq_zero']
    exact not_le.mpr hS
  have hdot : tfidfDot a a = Finset.sum (vocabSel a a) fun u => tfidfWeight a a a u ^ 2 :=
    Finset.sum_congr rfl fun u _ => (sq (tfidfWeight a a a u)).symm
  rw [cosineSim, if_neg (by rintro (hc | hc) <;> exact hnorm hc), hdot, docNorm,
    Real.mul_self_sqrt (le_of_lt hS)]
  exact div_self (ne_of_gt hS)

/--
C9: the lexical similarity scorer is symmetric in its two arguments, and
any text with at least one term (the vectorizer keeps no stop-word list,
so every extracted term counts) scores exactly 100 against itself.
-/
theorem c9_semantic_score_symm_self :
    (∀ a b : String, calculate_semantic_score a b = calculate_semantic_score b a)
    ∧ (∀ a : String, tokenize a ≠ [] → calculate_semantic_score a a = 100) := by
  constructor
  · intro a b
    rw [calculate_semantic_score, calculate_semantic_score, vocab0_symm a b,
      cosineSim_symm a b]
  · intro a h
    have hvne : vocab0 a a ≠ ∅ := by
      obtain ⟨t, ht⟩ := List.exists_mem_of_ne_nil _ h
      exact Finset.ne_empty_of_mem
        (List.mem_toFinset.mpr (List.mem_append.mpr (Or.inl ht)))
    rw [calculate_semantic_score, if_neg hvne, cosineSim_self h]
    norm_num

/-- Witness for C9 at a concrete input. -/
theorem c9_semantic_score_symm_self_witness :
    tokenize "hello world" ≠ [] ∧ calculate_semantic_score "hello world" "hello world" = 100 :=
  ⟨by decide, c9_semantic_score_symm_self.2 "hello world" (by decide)⟩

lemma length_assignRanksFrom (i : ℤ) (l : List MatchResult) :
    (assignRanksFrom i l).length = l.length := by
  induction l generalizing i with
  | nil => rfl
  | cons r rs ih => simp [assignRanksFrom, ih]

lemma map_rank_assignRanksFrom (i : ℤ) (l : List MatchResult) :
    (assignRanksFrom i l).map MatchResult.rank
      = (List.range l.length).map (fun j : ℕ => i + (j : ℤ)) := by
  induction l generalizing i with
  | nil => rfl
  | cons r rs ih =>
    rw [assignRanksFrom, List.map_cons, ih, List.length_cons,
      List.range_succ_eq_map, List.map_cons, List.map_map]
    congr 1
    · simp
    · refine List.map_congr_left fun j _ => ?_
      simp only [Function.comp_apply]
      push_cast
      ring

lemma map_finalScore_assignRanksFrom (i : ℤ) (l : List MatchResult) :
    (assignRanksFrom i l).map MatchResult.finalScore
      = l.map MatchResult.finalScore := by
  induction l generalizing i with
  | nil => rfl
  | cons r rs ih => simp [assignRanksFrom, ih]

lemma mem_assignRanksFrom {r' : MatchResult} {i : ℤ} {l : List MatchResult}
    (h : r' ∈ assignRanksFrom i l) :
    ∃ r ∈ l, ∃ j : ℤ, r' = { r with rank := j } := by
  induction l generalizing i with
  | nil => cases h
  | cons x xs ih =>
    rcases List.mem_cons.mp h with h' | h'
    · exact ⟨x, List.mem_cons_self x xs, i, h'⟩
    · obtain ⟨r, hr, j, hj⟩ := ih h'
      exact ⟨r, List.mem_cons_of_mem x hr, j, hj⟩

lemma matchPost_blend (semF : String → String → ℚ)
    (resumeTexts : String → Option String) (jd : String) (poolLen topN : ℕ)
    (entries : List LLMEntry) (r : MatchResult)
    (hr : r ∈ matchPost semF resumeTexts jd poolLen topN entries) :
    ((resumeTexts r.name).getD "" ≠ "" →
      r.semanticScore = semF ((resumeTexts r.name).getD "") jd ∧
      r.finalScore = round2 (r.matchPercentage.getD 0 * 0.7 + r.semanticScore * 0.3))
    ∧ ((resumeTexts r.name).getD "" = "" →
      r.semanticScore = 0 ∧ r.finalScore = r.matchPercentage.getD 0) := by
  rw [matchPost] at hr
  by_cases hp : poolLen = 0
  · rw [if_pos hp] at hr
    cases hr
  rw [if_neg hp] at hr
  have hr1 : r ∈ assignRanksFrom 1
      (List.insertionSort rankLe
        ((entries.take (min topN poolLen)).map (scoreEntry semF resumeTexts jd))) :=
    (List.take_sublist _ _).subset hr
  obtain ⟨r0, hr0, j, hj⟩ := mem_assignRanksFrom hr1
  have hr2 : r0 ∈ (entries.take (min topN poolLen)).map (scoreEntry semF resumeTexts jd) :=
    (List.perm_insertionSort rankLe _).subset hr0
  obtain ⟨e, _, he⟩ := List.mem_map.mp hr2
  subst hj
  subst he
  have hname : (scoreEntry semF resumeTexts jd e).name = e.name := by
    simp only [scoreEntry]
    split <;> rfl
  have hmp : (scoreEntry semF resumeTexts jd e).matchPercentage = e.matchPercentage := by
    simp only [scoreEntry]
    split <;> rfl
  by_cases hrt : ((resumeTexts e.name).getD "") = ""
  · have hsem : (scoreEntry semF resumeTexts jd e).semanticScore = 0 := by
      simp [scoreEntry, hrt]
    have hfin : (scoreEntry semF resumeTexts jd e).finalScore
        = e.matchPercentage.getD 0 := by
      simp [scoreEntry, hrt]
    constructor
    · intro hne
      have hc : (resumeTexts (scoreEntry semF resumeTexts jd e).name).getD "" = "" := by
        rw [hname]
        exact hrt
      exact absurd hc hne
    · intro _
      refine ⟨hsem, ?_⟩
      show (scoreEntry semF resumeTexts jd e).finalScore
        = (scoreEntry semF resumeTexts jd e).matchPercentage.getD 0
      rw [hfin, hmp]
  · have hsem : (scoreEntry semF resumeTexts jd e).semanticScore
        = semF ((resumeTexts e.name).getD "") jd := by
      simp [scoreEntry, hrt]
    have hfin : (scoreEntry semF resumeTexts jd e).finalScore
        = round2 (e.matchPercentage.getD 0 * 0.7 +
          semF ((resumeTexts e.name).getD "") jd * 0.3) := by
      simp [scoreEntry, hrt]
    constructor
    · intro _
      constructor
      · show (scoreEntry semF resumeTexts jd e).semanticScore
          = semF ((resumeTexts (scoreEntry semF resumeTexts jd e).name).getD "") jd
        rw [hname, hsem]
      · show (scoreEntry semF resumeTexts jd e).finalScore
          = round2 ((scoreEntry semF resumeTexts jd e).matchPercentage.getD 0 * 0.7 +
            (scoreEntry semF resumeTexts jd e).semanticScore * 0.3)
        rw [hmp, hsem, hfin]
    · intro heq
      have hc : (resumeTexts e.name).getD "" = "" := by
        rw [← hname]
        exact heq
      exact absurd hc hrt

/--
C4 (amended): whenever the parsed LLM reply holds at least
min(topN, pool size) entries, the ranker returns exactly that many
results, their rank fields are the dense sequence 1..N in output order
regardless of the rank values the LLM supplied, and the output is sorted
descending by final score.  (As stated the claim fails: the code
truncates the parsed reply but never pads it, so a reply with fewer
entries - including the empty array - yields fewer results, see the
counterexample.)
-/
theorem c4_ranker_shape (resumeTexts : String → Option String) (jd : String)
    (poolLen topN : ℕ) (entries : List LLMEntry)
    (h1 : 0 < poolLen) (h2 : min topN poolLen ≤ entries.length) :
    (match_candidates_with_jd resumeTexts jd poolLen topN entries).length
        = min topN poolLen
    ∧ (match_candidates_with_jd resumeTexts jd poolLen topN entries).map
        MatchResult.rank
        = (List.range (min topN poolLen)).map (fun j : ℕ => (j : ℤ) + 1)
    ∧ ((match_candidates_with_jd resumeTexts jd poolLen topN entries).map
        MatchResult.finalScore).Pairwise (fun x y => y ≤ x) := by
  rw [match_candidates_with_jd, matchPost, if_neg (Nat.pos_iff_ne_zero.mp h1)]
  have hres : ((entries.take (min topN poolLen)).map
      (scoreEntry calculate_semantic_score resumeTexts jd)).length = min topN poolLen := by
    rw [List.length_map, List.length_take]
    exact Nat.min_eq_left h2
  have hsort : (List.insertionSort rankLe
      ((entries.take (min topN poolLen)).map
        (scoreEntry calculate_semantic_score resumeTexts jd))).length
      = min topN poolLen := by
    rw [(List.perm_insertionSort rankLe _).length_eq, hres]
  have hassign : (assignRanksFrom 1 (List.insertionSort rankLe
      ((entries.take (min topN poolLen)).map
        (scoreEntry calculate_semantic_score resumeTexts jd)))).length
      = min topN poolLen := by
    rw [length_assignRanksFrom, hsort]
  have htake : (assignRanksFrom 1 (List.insertionSort rankLe
      ((entries.take (min topN poolLen)).map
        (scoreEntry calculate_semantic_score resumeTexts jd)))).take (min topN poolLen)
      = assignRanksFrom 1 (List.insertionSort rankLe
      ((entries.take (min topN poolLen)).map
        (scoreEntry calculate_semantic_score resumeTexts jd))) :=
    List.take_of_length_le (le_of_eq hassign)
  rw [htake]
  refine ⟨hassign, ?_, ?_⟩
  · rw [map_rank_assignRanksFrom, hsort]
    refine List.map_congr_left fun j _ => ?_
    ring
  · rw [map_finalScore_assignRanksFrom]
    have hs := List.sorted_insertionSort rankLe
      ((entries.take (min topN poolLen)).map
        (scoreEntry calculate_semantic_score resumeTexts jd))
    exact List.pairwise_map.mpr hs

/--
Counterexample to C4 as stated: a pool of one candidate with topN = 5
must, per the claim, yield min(5, 1) = 1 result, but when the LLM reply
parses to the empty array the ranker returns no results at all.
-/
theorem c4_ranker_shape_counterexample :
    (match_candidates_with_jd (fun _ => none) "" 1 5 []).length ≠ min 5 1 := by
  decide

/-- Witness for C4 at concrete inputs. -/
theorem c4_ranker_shape_witness :
    (match_candidates_with_jd (fun _ => none) "" 1 5
        [⟨7, "x", "e", some 80, "", "", "", ""⟩]).length = min 5 1 ∧
    (match_candidates_with_jd (fun _ => none) "" 1 5
        [⟨7, "x", "e", some 80, "", "", "", ""⟩]).map MatchResult.rank
      = (List.range (min 5 1)).map (fun j : ℕ => (j : ℤ) + 1) := by
  have h := c4_ranker_shape (fun _ => none) "" 1 5
    [⟨7, "x", "e", some 80, "", "", "", ""⟩] (by decide) (by decide)
  exact ⟨h.1, h.2.1⟩

/--
C5: every returned entry carries semantic_score equal to the lexical
similarity of the stored resume text against the JD when that text is
available (truthy lookup by candidate name), with
final_score = round(0.7 * match_percentage + 0.3 * semantic_score, 2);
when no resume text is available, semantic_score is 0 and final_score is
the LLM match percentage unmodified.
-/
theorem c5_final_score_blend (resumeTexts : String → Option String) (jd : String)
    (poolLen topN : ℕ) (entries : List LLMEntry) (r : MatchResult)
    (hr : r ∈ match_candidates_with_jd resumeTexts jd poolLen topN entries) :
    ((resumeTexts r.name).getD "" ≠ "" →
      r.semanticScore = calculate_semantic_score ((resumeTexts r.name).getD "") jd ∧
      r.finalScore = round2 (r.matchPercentage.getD 0 * 0.7 + r.semanticScore * 0.3))
    ∧ ((resumeTexts r.name).getD "" = "" →
      r.semanticScore = 0 ∧ r.finalScore = r.matchPercentage.getD 0) :=
  matchPost_blend calculate_semantic_score resumeTexts jd poolLen topN entries r hr

/-- Witness for C5 at concrete inputs. -/
theorem c5_final_score_blend_witness :
    (⟨1, "x", "e", some 80, "", "", "", "", 0, 80⟩ : MatchResult) ∈
        match_candidates_with_jd (fun _ => none) "" 1 1
          [⟨7, "x", "e", some 80, "", "", "", ""⟩] ∧
    (⟨1, "x", "e", some 80, "", "", "", "", 0, 80⟩ : MatchResult).semanticScore = 0 ∧
    (⟨1, "x", "e", some 80, "", "", "", "", 0, 80⟩ : MatchResult).finalScore
      = (⟨1, "x", "e", some 80, "", "", "", "", 0, 80⟩ : MatchResult).matchPercentage.getD 0 := by
  have hmem : (⟨1, "x", "e", some 80, "", "", "", "", 0, 80⟩ : MatchResult) ∈
      match_candidates_with_jd (fun _ => none) "" 1 1
        [⟨7, "x", "e", some 80, "", "", "", ""⟩] := by
    decide
  have h := c5_final_score_blend (fun _ => none) "" 1 1
    [⟨7, "x", "e", some 80, "", "", "", ""⟩] _ hmem
  exact ⟨hmem, h.2 (by decide)⟩

lemma hasPhone_false_of_no_digit {l : List Char}
    (h : ∀ c ∈ l, c.isDigit = false) : hasPhone l = false := by
  induction l with
  | nil => rfl
  | cons c cs ih =>
    rw [hasPhone, Bool.or_eq_false_iff]
    refine ⟨?_, ih fun d hd => h d (List.mem_cons_of_mem _ hd)⟩
    cases htry : tryPhoneAt (c :: cs) with
    | none => rfl
    | some n =>
      exfalso
      obtain ⟨d, hd, hdd⟩ := (tryPhoneAt_spec htry).2.2
      obtain ⟨hlt, he⟩ := List.getElem?_eq_some.mp hd
      have hmem : d ∈ c :: cs := he ▸ List.getElem_mem hlt
      rw [h d hmem] at hdd
      cases hdd

/--
C8: the PII redactor is idempotent: applying mask_pii twice gives the
same result as applying it once, for every input string.
-/
theorem c8_mask_pii_idempotent (s : String) : mask_pii (mask_pii s) = mask_pii s := by
  have hmk : ∀ l : List Char, (String.mk l).toList = l := fun _ => rfl
  rw [mask_pii, mask_pii, hmk,
    emailSub_of_triple_false _ (emailTriple_phoneSub _ (emailTriple_emailSub s.toList)),
    phoneSub_idem]

/--
C7 (amended): mask_pii replaces each maximal whitespace-free run holding
an '@' with at least one character on each side of it within the run by
the email placeholder, and each span of the phone pattern - a digit,
8 to 12 characters that are digits, spaces or dashes, and a digit, with
an optional leading '+', hence 10 to 14 characters - by the phone
placeholder; it is a total function and returns the input unchanged when
no '@' and no digit occur.  In particular an unseparated digit run is
masked exactly when its length is between 10 and 14: a run of 8 or 9
digits is NOT replaced, contrary to the 8-to-13-digit range the claim
states (see the counterexample).
-/
theorem c7_mask_pii_patterns :
    (∀ s : String, (∀ c ∈ s.toList, c ≠ '@' ∧ c.isDigit = false) → mask_pii s = s)
    ∧ (∀ s : String, s.toList ≠ [] → (∀ c ∈ s.toList, isSpaceCh c = false) →
        emailRunMatch s.toList = true → mask_pii s = "[EMAIL_MASKED]")
    ∧ (∀ n : ℕ, n ≤ 14 → mask_pii (String.mk (List.replicate n '1')) =
        if 10 ≤ n then "[PHONE_MASKED]" else String.mk (List.replicate n '1'))
    ∧ mask_pii "+91 98765 43210" = "[PHONE_MASKED]"
    ∧ mask_pii "user@example.com zz" = "[EMAIL_MASKED] zz" := by
  refine ⟨?_, ?_, ?_, by decide, by decide⟩
  · intro s h
    have h1 : emailTriple s.toList = false :=
      emailTriple_false_of_no_at fun c hc => (h c hc).1
    have h3 : hasPhone s.toList = false :=
      hasPhone_false_of_no_digit fun c hc => (h c hc).2
    rw [mask_pii, emailSub_of_triple_false _ h1, phoneSub_of_hasPhone_false _ h3]
    rfl
  · intro s hne hns hm
    rw [mask_pii]
    cases hsl : s.toList with
    | nil => exact absurd hsl hne
    | cons c cs =>
      rw [hsl] at hns hm
      have hc : isSpaceCh c = false := hns c (List.mem_cons_self c cs)
      have hdw : cs.dropWhile (fun d => !isSpaceCh d) = [] := by
        rw [List.dropWhile_eq_nil_iff]
        intro x hx
        rw [hns x (List.mem_cons_of_mem c hx)]
        rfl
      have htw : cs.takeWhile (fun d => !isSpaceCh d) = cs := by
        have hh := List.takeWhile_append_dropWhile (fun d => !isSpaceCh d) cs
        rw [hdw, List.append_nil] at hh
        exact hh
      rw [emailSub_cons, if_neg (by rw [hc]; exact Bool.false_ne_true), htw, hdw,
        if_pos hm]
      have he : emailSub ([] : List Char) = [] := rfl
      rw [he, List.append_nil]
      decide
  · intro n hn
    interval_cases n <;> decide

/--
Counterexample to C7 as stated: a run of exactly 8 digits is, per the
claim, a phone-like run and must be replaced by the phone placeholder,
but mask_pii leaves it untouched (the pattern needs at least 10
characters between its mandatory first and last digit inclusive).
-/
theorem c7_mask_pii_patterns_counterexample :
    mask_pii "12345678" = "12345678" ∧ "12345678" ≠ "[PHONE_MASKED]" :=
  ⟨by decide, by decide⟩

/-- Witness for C7 at concrete inputs. -/
theorem c7_mask_pii_patterns_witness :
    mask_pii "hello" = "hello" ∧
    mask_pii "user@example.com" = "[EMAIL_MASKED]" ∧
    mask_pii (String.mk (List.replicate 10 '1')) = "[PHONE_MASKED]" := by
  refine ⟨c7_mask_pii_patterns.1 "hello" (by decide),
    c7_mask_pii_patterns.2.1 "user@example.com" (by decide) (by decide) (by decide), ?_⟩
  have h := c7_mask_pii_patterns.2.2.1 10 (by norm_num)
  rw [if_pos (by norm_num)] at h
  exact h

end ResumeScreener
